import Mathlib

/-!
Verification of the forensic-investigation engine: a shallow embedding of the
content-addressed ingestion pipeline (hashing, deduplication, text
normalization, document storage) and of the three analytics detectors
(Benford anomaly engine, timeline silence-interval auditor, co-occurrence
bridge detector), together with theorems checking the specified properties.

Numeric values that the source computes with Python floats are modelled with
exact rationals; byte strings are lists of naturals; text is a list of
characters (the inputs exercised here are ASCII).
-/

set_option maxRecDepth 10000

namespace Forensic

/-! ### Generic list utilities -/

/-- Splitting a list into consecutive chunks of size n (the last chunk may be
shorter), with explicit fuel so that the recursion is structural. This models
reading a file with repeated f.read(n) calls. -/
def chunksOfAux (n : Nat) : Nat → List α → List (List α)
  | 0, _ => []
  | _, [] => []
  | fuel + 1, l => l.take n :: chunksOfAux n fuel (l.drop n)

/-- Consecutive chunks of size n of a list. -/
def chunksOf (n : Nat) (l : List α) : List (List α) :=
  chunksOfAux n l.length l

/-! ### SHA-256 (model of hashlib.sha256)

The source delegates hashing to hashlib; the digest of a byte sequence is
SHA-256 as specified in FIPS 180-4, implemented here over naturals reduced
modulo 2^32. -/

/-- Reduction to a 32-bit word. -/
def w32 (n : Nat) : Nat := n % 4294967296

/-- Right rotation of a 32-bit word by k bits. -/
def rotr32 (k n : Nat) : Nat := w32 (n / 2 ^ k + n % 2 ^ k * 2 ^ (32 - k))

/-- Logical right shift by k bits. -/
def shr32 (k n : Nat) : Nat := n / 2 ^ k

/-- Three-way xor. -/
def xor3 (a b c : Nat) : Nat := Nat.xor (Nat.xor a b) c

/-- SHA-256 Σ0. -/
def bigSigma0 (x : Nat) : Nat := xor3 (rotr32 2 x) (rotr32 13 x) (rotr32 22 x)

/-- SHA-256 Σ1. -/
def bigSigma1 (x : Nat) : Nat := xor3 (rotr32 6 x) (rotr32 11 x) (rotr32 25 x)

/-- SHA-256 σ0. -/
def smallSigma0 (x : Nat) : Nat := xor3 (rotr32 7 x) (rotr32 18 x) (shr32 3 x)

/-- SHA-256 σ1. -/
def smallSigma1 (x : Nat) : Nat := xor3 (rotr32 17 x) (rotr32 19 x) (shr32 10 x)

/-- SHA-256 choice function. -/
def chFn (x y z : Nat) : Nat :=
  Nat.xor (Nat.land x y) (Nat.land (Nat.xor x 4294967295) z)

/-- SHA-256 majority function. -/
def majFn (x y z : Nat) : Nat :=
  Nat.xor (Nat.xor (Nat.land x y) (Nat.land x z)) (Nat.land y z)

/-- The 64 SHA-256 round constants of FIPS 180-4. -/
def sha256K : List Nat :=
  [1116352408, 1899447441, 3049323471, 3921009573, 961987163,
   1508970993, 2453635748, 2870763221, 3624381080, 310598401,
   607225278, 1426881987, 1925078388, 2162078206, 2614888103,
   3248222580, 3835390401, 4022224774, 264347078, 604807628,
   770255983, 1249150122, 1555081692, 1996064986, 2554220882,
   2821834349, 2952996808, 3210313671, 3336571891, 3584528711,
   113926993, 338241895, 666307205, 773529912, 1294757372,
   1396182291, 1695183700, 1986661051, 2177026350, 2456956037,
   2730485921, 2820302411, 3259730800, 3345764771, 3516065817,
   3600352804, 4094571909, 275423344, 430227734, 506948616,
   659060556, 883997877, 958139571, 1322822218, 1537002063,
   1747873779, 1955562222, 2024104815, 2227730452, 2361852424,
   2428436474, 2756734187, 3204031479, 3329325298]

/-- The initial SHA-256 hash state of FIPS 180-4. -/
def sha256H0 : List Nat :=
  [1779033703, 3144134277, 1013904242, 2773480762,
   1359893119, 2600822924, 528734635, 1541459225]

/-- Extend a 16-word message block by k further schedule words. -/
def extendSchedule (ws : List Nat) : Nat → List Nat
  | 0 => ws
  | k + 1 =>
    let prev := extendSchedule ws k
    let i := prev.length
    prev ++ [w32 (smallSigma1 (prev.getD (i - 2) 0) + prev.getD (i - 7) 0 +
      smallSigma0 (prev.getD (i - 15) 0) + prev.getD (i - 16) 0)]

/-- Full 64-word message schedule of one block. -/
def sha256Schedule (block : List Nat) : List Nat := extendSchedule block 48

/-- One round of the SHA-256 compression loop: the state is the word list
[a, b, c, d, e, f, g, h] and kw pairs the round constant with the
schedule word. -/
def sha256Round (st : List Nat) (kw : Nat × Nat) : List Nat :=
  match st with
  | [a, b, c, d, e, f, g, h] =>
    let t1 := w32 (h + bigSigma1 e + chFn e f g + kw.1 + kw.2)
    let t2 := w32 (bigSigma0 a + majFn a b c)
    [w32 (t1 + t2), a, b, c, w32 (d + t1), e, f, g]
  | other => other

/-- Compression of one 16-word block into the running hash state. -/
def sha256Compress (h : List Nat) (block : List Nat) : List Nat :=
  let st := (sha256K.zip (sha256Schedule block)).foldl sha256Round h
  (h.zip st).map (fun p => w32 (p.1 + p.2))

/-- Big-endian grouping of bytes into 32-bit words. -/
def bytesToWords : List Nat → List Nat
  | b0 :: b1 :: b2 :: b3 :: rest =>
    (((b0 * 256 + b1) * 256 + b2) * 256 + b3) :: bytesToWords rest
  | _ => []

/-- Big-endian 8-byte encoding of a message bit length. -/
def lenBytes (n : Nat) : List Nat :=
  [n / 2 ^ 56 % 256, n / 2 ^ 48 % 256, n / 2 ^ 40 % 256, n / 2 ^ 32 % 256,
   n / 2 ^ 24 % 256, n / 2 ^ 16 % 256, n / 2 ^ 8 % 256, n % 256]

/-- SHA-256 padding: append 0x80, zero bytes up to 56 mod 64, then the
bit length. -/
def sha256Pad (msg : List Nat) : List Nat :=
  msg ++ [128] ++ List.replicate ((119 - msg.length % 64) % 64) 0 ++
    lenBytes (8 * msg.length)

/-- SHA-256 digest of a byte sequence, as the list of eight 32-bit words. -/
def sha256Words (msg : List Nat) : List Nat :=
  (chunksOf 64 (sha256Pad msg)).foldl
    (fun h blk => sha256Compress h (bytesToWords blk)) sha256H0

/-- Lower-case hex digit. -/
def hexDigit (n : Nat) : Char :=
  if n < 10 then Char.ofNat (48 + n) else Char.ofNat (87 + n)

/-- Eight-hex-digit rendering of a 32-bit word. -/
def wordToHex (n : Nat) : List Char :=
  [hexDigit (n / 2 ^ 28 % 16), hexDigit (n / 2 ^ 24 % 16),
   hexDigit (n / 2 ^ 20 % 16), hexDigit (n / 2 ^ 16 % 16),
   hexDigit (n / 2 ^ 12 % 16), hexDigit (n / 2 ^ 8 % 16),
   hexDigit (n / 2 ^ 4 % 16), hexDigit (n % 16)]

/-- Hex digest of a byte sequence: the hashlib sha256 hexdigest value. -/
def sha256hex (msg : List Nat) : String :=
  ⟨((sha256Words msg).map wordToHex).flatten⟩

/-! ### Content hashing (src/src/librarian.py, src/src/ingest.py,
src/src/analytics/database.py) -/

/-- Pure model of the hashlib streaming state: the state is the byte sequence
fed so far, and hasher.update(chunk) appends the chunk. The digest of a state
is sha256hex of the accumulated bytes. -/
def hasher_update (st : List Nat) (chunk : List Nat) : List Nat := st ++ chunk

/-- Model of compute_file_hash (src/src/librarian.py lines 43-62) and of
DocumentIngester.calculate_hash (src/src/ingest.py lines 55-74) on the file
byte content: the file is read in 4096-byte chunks, each fed to the streaming
hasher, and the hex digest of the final state is returned. -/
def compute_file_hash (content : List Nat) : String :=
  sha256hex ((chunksOf 4096 content).foldl hasher_update [])

/-- UTF-8 encoding of a character list; the texts modelled here are ASCII,
where UTF-8 is one byte per character. -/
def strToBytes (l : List Char) : List Nat := l.map Char.toNat

/-- Model of compute_document_hash (src/src/analytics/database.py lines
137-149): the digest of filename, a colon, and the first 1000 characters of
the text. -/
def compute_document_hash (filename : String) (text : List Char) : String :=
  sha256hex (strToBytes (filename.data ++ [':'] ++ text.take 1000))

/-! ### Text normalization (DocumentIngester.clean_text,
src/src/ingest.py lines 211-241) -/

/-- Python regex whitespace class (and str.isspace) restricted to ASCII:
space, tab, newline, vertical tab, form feed, carriage return, and the
separator controls 0x1c-0x1f. -/
def isPySpace (c : Char) : Bool :=
  c == ' ' || c == '\t' || c == '\n' || c.toNat == 11 || c.toNat == 12 ||
    c == '\r' || c.toNat == 28 || c.toNat == 29 || c.toNat == 30 ||
    c.toNat == 31

/-- Character class removed by the control-character regex
[\x00-\x08\x0b-\x0c\x0e-\x1f\x7f] in clean_text. -/
def isStrippedCtrl (c : Char) : Bool :=
  c.toNat ≤ 8 || c.toNat == 11 || c.toNat == 12 ||
    (14 ≤ c.toNat && c.toNat ≤ 31) || c.toNat == 127

/-- Replacement of every maximal whitespace run by a single space, as
re.sub of the pattern \s+ with a space; the flag records whether the
previously emitted character position ended inside a run. -/
def collapseWSAux (prevSpace : Bool) : List Char → List Char
  | [] => []
  | c :: cs =>
    if isPySpace c then
      if prevSpace then collapseWSAux true cs
      else ' ' :: collapseWSAux true cs
    else c :: collapseWSAux false cs

/-- Whitespace-run collapse of a whole string. -/
def collapseWS (l : List Char) : List Char := collapseWSAux false l

/-- Removal of a trailing whitespace run, the right half of str.strip. -/
def dropTrailWS : List Char → List Char
  | [] => []
  | c :: cs =>
    let r := dropTrailWS cs
    if r.isEmpty && isPySpace c then [] else c :: r

/-- Model of str.strip: drop leading and trailing whitespace. -/
def stripWS (l : List Char) : List Char := dropTrailWS (l.dropWhile isPySpace)

/-- Model of DocumentIngester.clean_text on character lists. The unicodedata
NFKD normalization step of the source is the identity on the ASCII character
range modelled here; the remaining steps are, in source order: collapse
whitespace runs to single spaces, strip leading and trailing whitespace, and
delete the control characters of isStrippedCtrl. -/
def clean_text (l : List Char) : List Char :=
  if l.isEmpty then []
  else (stripWS (collapseWS l)).filter (fun c => !isStrippedCtrl c)

/-! ### Ingestion pipeline (DocumentIngester, src/src/ingest.py) -/

/-- Model of one input file as seen by DocumentIngester.process_file: the
outcome of calculate_hash (none models an I/O error), whether the extension is
one of the supported types, and the outcome of the external text extractor
(none models total extraction failure). -/
structure FileModel where
  hashResult : Option String
  supported : Bool
  extractResult : Option (List Char)

/-- Model of DocumentIngester.is_duplicate (lines 76-89): membership of the
hash in the processed_hashes set. -/
def is_duplicate (processed : List String) (h : String) : Bool :=
  processed.contains h

/-- Model of DocumentIngester.mark_as_processed (lines 91-98): set insertion
of the hash. -/
def mark_as_processed (processed : List String) (h : String) : List String :=
  if processed.contains h then processed else h :: processed

/-- Model of DocumentIngester.process_file (lines 243-293). The result pairs
the new processed_hashes state with the returned (hash, cleaned text) pair;
none components model the None returns of the source. -/
def process_file (processed : List String) (f : FileModel) :
    List String × (Option String × Option (List Char)) :=
  match f.hashResult with
  | none => (processed, (none, none))
  | some h =>
    if is_duplicate processed h then (processed, (some h, none))
    else if !f.supported then (processed, (none, none))
    else
      match f.extractResult with
      | none => (processed, (some h, none))
      | some raw => (mark_as_processed processed h, (some h, some (clean_text raw)))

/-! ### Corpus store (InvestigationDB, src/src/db.py) and the ingestion loop
of main.py -/

/-- One row of the documents table of src/src/db.py: id, filename, raw text
and content hash, with UNIQUE constraints on filename and hash. -/
structure DocRow where
  id : Nat
  filename : String
  raw_text : List Char
  hash : String
deriving DecidableEq

/-- Model of InvestigationDB.document_exists (lines 83-102). -/
def document_exists (store : List DocRow) (h : String) : Bool :=
  store.any (fun d => d.hash == h)

/-- Model of InvestigationDB.insert_document (lines 104-131): the INSERT
succeeds and returns the fresh AUTOINCREMENT row id unless it violates the
UNIQUE constraint on hash or on filename, in which case the IntegrityError
branch returns None and the table is unchanged. -/
def insert_document (store : List DocRow) (filename : String)
    (raw : List Char) (h : String) : Option (List DocRow × Nat) :=
  if store.any (fun d => d.hash == h || d.filename == filename) then none
  else some (store ++ [⟨store.length + 1, filename, raw, h⟩], store.length + 1)

/-- Outcome of ingesting one file in the process_documents loop of main.py:
inserted with a fresh id, skipped as an already-present duplicate, or failed. -/
inductive IngestOutcome where
  | inserted (id : Nat)
  | duplicate
  | failed
deriving DecidableEq

/-- Model of the per-file body of process_documents (main.py lines 107-121):
hash the content, skip as a duplicate when a document with that fingerprint
already exists, otherwise insert the document row. -/
def ingest_one (store : List DocRow) (filename : String) (content : List Nat)
    (text : List Char) : List DocRow × IngestOutcome :=
  let h := compute_file_hash content
  if document_exists store h then (store, .duplicate)
  else
    match insert_document store filename text h with
    | some (store2, id) => (store2, .inserted id)
    | none => (store, .failed)

/-- Number of document rows carrying a given content hash. -/
def count_hash (store : List DocRow) (h : String) : Nat :=
  (store.filter (fun d => d.hash == h)).length

/-! ### Benford anomaly engine (AnomalyEngine, src/src/analytics.py) -/

/-- The BENFORDS_DISTRIBUTION table of src/src/analytics.py lines 26-36, as
exact rationals. -/
def benfords_distribution (d : Nat) : ℚ :=
  if d = 1 then 301 / 1000 else if d = 2 then 176 / 1000
  else if d = 3 then 125 / 1000 else if d = 4 then 97 / 1000
  else if d = 5 then 79 / 1000 else if d = 6 then 67 / 1000
  else if d = 7 then 58 / 1000 else if d = 8 then 51 / 1000
  else if d = 9 then 46 / 1000 else 0

/-- Most significant decimal digit, with fuel for structural recursion
(0 for the input 0). -/
def msdAux : Nat → Nat → Nat
  | 0, n => n
  | fuel + 1, n => if n < 10 then n else msdAux fuel (n / 10)

/-- Leading decimal digit of a natural number. -/
def msd (n : Nat) : Nat := msdAux n n

/-- First digit of an amount as taken by get_first_digit_distribution
(lines 222-253): the first character of str(int(abs(num))). -/
def first_digit (q : ℚ) : Nat := msd (Int.toNat ⌊|q|⌋)

/-- The retained first digits of a sample, dropping the digit 0 exactly as
the source drops first_digit equal to the character 0. -/
def first_digits (amounts : List ℚ) : List Nat :=
  (amounts.map first_digit).filter (fun d => d != 0)

/-- Observed first-digit frequency of get_first_digit_distribution: the count
of the digit among the retained first digits over their total number. -/
def observed_freq (amounts : List ℚ) (d : Nat) : ℚ :=
  ((first_digits amounts).count d : ℚ) / ((first_digits amounts).length : ℚ)

/-- The nine first-digit categories. -/
def digitsRange : List Nat := [1, 2, 3, 4, 5, 6, 7, 8, 9]

/-- Model of AnomalyEngine.chi_square_test (lines 255-278): frequencies are
scaled back to counts by the sample size and digits with nonpositive expected
frequency are skipped. -/
def chi_square_test (observed : Nat → ℚ) (expected : Nat → ℚ)
    (sample_size : Nat) : ℚ :=
  (digitsRange.map (fun d =>
    let obsFreq := observed d * sample_size
    let expFreq := expected d * sample_size
    if 0 < expFreq then (obsFreq - expFreq) ^ 2 / expFreq else 0)).sum

/-- The violation record produced for one document: its sample size and
chi-square statistic. -/
structure BenfordViolation where
  sample_size : Nat
  chi_square : ℚ
deriving DecidableEq

/-- Per-document body of AnomalyEngine.detect_benfords_law_violation
(lines 296-331), applied to the amounts extracted from one document: the
document is skipped when the sample is below the minimum size or the digit
distribution is empty, and is flagged exactly when the chi-square statistic
exceeds the threshold. -/
def benford_document_check (amounts : List ℚ) (min_sample_size : Nat)
    (chi_square_threshold : ℚ) : Option BenfordViolation :=
  if amounts.length < min_sample_size then none
  else if first_digits amounts = [] then none
  else
    let chi := chi_square_test (observed_freq amounts) benfords_distribution
      amounts.length
    if chi_square_threshold < chi then some ⟨amounts.length, chi⟩ else none

/-- The synthetic sample of sixty sequential amounts 100 to 159. -/
def sequentialAmounts : List ℚ :=
  (List.range 60).map (fun i => ((100 + i : Nat) : ℚ))

/-! ### Pooled Benford test (ForensicAccountant,
src/src/analytics/forensic_accountant.py) -/

/-- Rounding to the nearest integer with ties to even: the rounding performed
by the Python format specifier .0f. -/
def roundHalfEven (q : ℚ) : Int :=
  if q - ⌊q⌋ < 1 / 2 then ⌊q⌋
  else if 1 / 2 < q - ⌊q⌋ then ⌊q⌋ + 1
  else if ⌊q⌋ % 2 = 0 then ⌊q⌋ else ⌊q⌋ + 1

/-- Model of ForensicAccountant.get_leading_digit (lines 121-133): the first
character of the amount formatted with .0f (round half to even), returned
only when positive. The amounts stored by the extractor are positive, which
is the domain on which the source formatting yields a leading digit. -/
def get_leading_digit (q : ℚ) : Option Nat :=
  let d := msd (roundHalfEven q).toNat
  if 0 < d then some d else none

/-- Result record of ForensicAccountant.benford_test: the number of analyzed
leading digits, the chi-square statistic, and the suspicion flag. -/
structure FaBenfordResult where
  total_amounts : Nat
  chi_square : ℚ
  is_suspicious : Bool
deriving DecidableEq

/-- Model of ForensicAccountant.benford_test (lines 135-201) on the pooled
list of extracted amounts. The empty-dictionary returns for no amounts or no
valid leading digits are none; otherwise the chi-square statistic of the
pooled sample is computed with no minimum-sample-size check, and the result
is flagged suspicious when the scipy p-value at 8 degrees of freedom is
below 0.05 — equivalently, when the statistic exceeds the df=8 critical
value at p=0.05, the constant 15.507 that the source uses for this very
test in analytics.py. -/
def fa_benford_test (amounts : List ℚ) : Option FaBenfordResult :=
  if amounts.isEmpty then none
  else
    let ds := amounts.filterMap get_leading_digit
    if ds.isEmpty then none
    else
      let total := ds.length
      let chi := (digitsRange.map (fun d =>
        ((ds.count d : ℚ) - benfords_distribution d * total) ^ 2 /
          (benfords_distribution d * total))).sum
      some ⟨total, chi, decide (15507 / 1000 < chi)⟩

/-! ### Timeline engine (TimelineEngine, src/src/analytics.py lines 361-507) -/

/-- A calendar date as parsed by extract_dates. -/
structure DateYMD where
  year : Nat
  month : Nat
  day : Nat
deriving DecidableEq

/-- Gregorian leap-year test. -/
def isLeapYear (y : Nat) : Bool := (y % 4 == 0 && y % 100 != 0) || y % 400 == 0

/-- Days before the first of each month in a non-leap year. -/
def days_before_month (m : Nat) : Nat :=
  [0, 0, 31, 59, 90, 120, 151, 181, 212, 243, 273, 304, 334].getD m 0

/-- Proleptic-Gregorian ordinal of a date, as datetime.date.toordinal: day 1
is January 1 of year 1. Differences of ordinals are the day differences that
datetime subtraction yields. -/
def toOrdinal (d : DateYMD) : Nat :=
  365 * (d.year - 1) + (d.year - 1) / 4 - (d.year - 1) / 100 +
    (d.year - 1) / 400 + days_before_month d.month +
    (if 2 < d.month && isLeapYear d.year then 1 else 0) + d.day

/-- Chronological insertion, modelling the sorted builtin on datetimes. -/
def insertDateAsc (x : DateYMD) : List DateYMD → List DateYMD
  | [] => [x]
  | y :: ys =>
    if toOrdinal x ≤ toOrdinal y then x :: y :: ys else y :: insertDateAsc x ys

/-- Ascending chronological sort of a date list. -/
def sortDatesAsc (l : List DateYMD) : List DateYMD := l.foldr insertDateAsc []

/-- Model of sorted(set(dates)): the distinct dates in ascending order. -/
def unique_sorted_dates (dates : List DateYMD) : List DateYMD :=
  sortDatesAsc dates.dedup

/-- One reported silence interval: bounding dates and gap length in days. -/
structure SilenceInterval where
  start_date : DateYMD
  end_date : DateYMD
  gap_days : Nat
deriving DecidableEq

/-- Stable insertion by descending gap length, modelling the stable Python
list sort with reverse=True. -/
def insertGapDesc (x : SilenceInterval) :
    List SilenceInterval → List SilenceInterval
  | [] => [x]
  | y :: ys =>
    if y.gap_days ≤ x.gap_days then x :: y :: ys else y :: insertGapDesc x ys

/-- Stable descending sort of intervals by gap length. -/
def sortGapsDesc (l : List SilenceInterval) : List SilenceInterval :=
  l.foldr insertGapDesc []

/-- Model of TimelineEngine.find_silence_intervals (lines 446-507), applied to
the corpus-wide list of successfully parsed document dates: with fewer than
two parsed dates the result is empty; otherwise consecutive pairs of the
deduplicated sorted dates with gap strictly above the threshold are reported,
sorted by descending gap length. -/
def find_silence_intervals (dates : List DateYMD) (min_gap_days : Nat) :
    List SilenceInterval :=
  if dates.length < 2 then []
  else
    let u := unique_sorted_dates dates
    sortGapsDesc ((u.zip u.tail).filterMap (fun p =>
      let gap := toOrdinal p.2 - toOrdinal p.1
      if min_gap_days < gap then some ⟨p.1, p.2, gap⟩ else none))

/-! ### Co-occurrence graph metrics (ConnectorEngine, src/src/analytics.py
lines 46-177) -/

/-- Number of walks of a given length between two nodes of the graph whose
adjacency predicate is adj; the entry of the k-th power of the adjacency
matrix. -/
def walks {n : Nat} (adj : Fin n → Fin n → Bool) : Nat → Fin n → Fin n → Nat
  | 0, s, t => if s = t then 1 else 0
  | k + 1, s, t =>
    ((List.finRange n).map (fun u => if adj s u then walks adj k u t else 0)).sum

/-- Breadth-first distance between two nodes: the least walk length with a
connecting walk, none when unreachable (distances in a graph on n nodes are
below n). -/
def bfsDist {n : Nat} (adj : Fin n → Fin n → Bool) (s t : Fin n) : Option Nat :=
  (List.range n).find? (fun k => walks adj k s t != 0)

/-- Number of shortest paths between two nodes: walks of exactly the distance
length (every such walk is a path). -/
def sigmaCount {n : Nat} (adj : Fin n → Fin n → Bool) (s t : Fin n) : Nat :=
  match bfsDist adj s t with
  | some k => walks adj k s t
  | none => 0

/-- Number of shortest s-t paths passing through the interior node v: zero
unless s, t, v are pairwise distinct and v lies on a shortest path. -/
def sigmaThrough {n : Nat} (adj : Fin n → Fin n → Bool) (v s t : Fin n) : Nat :=
  if s = t ∨ v = s ∨ v = t then 0
  else
    match bfsDist adj s t, bfsDist adj s v, bfsDist adj v t with
    | some d, some d1, some d2 =>
      if d1 + d2 = d then sigmaCount adj s v * sigmaCount adj v t else 0
    | _, _, _ => 0

/-- All ordered node pairs of the graph. -/
def allPairs (n : Nat) : List (Fin n × Fin n) :=
  (List.finRange n).product (List.finRange n)

/-- Modelled from the spec: normalized betweenness centrality, the quantity
the source obtains from the external networkx library in
ConnectorEngine.calculate_metrics (nx.betweenness_centrality, an
implementation of Brandes algorithm that is not part of this repository).
Per the spec it is the fraction of shortest s-t paths through v summed over
pairs with s distinct from t and v, normalized for an undirected graph by
2/((n-1)(n-2)); summing over ordered pairs absorbs the factor 2. Terms with
unreachable pairs contribute zero (division by zero is zero). -/
def betweenness_centrality {n : Nat} (adj : Fin n → Fin n → Bool)
    (v : Fin n) : ℚ :=
  (((allPairs n).map (fun p =>
    ((sigmaThrough adj v p.1 p.2 : ℚ) / (sigmaCount adj p.1 p.2 : ℚ)))).sum) /
    (((n - 1) * (n - 2) : Nat) : ℚ)

/-- Degree of a node: its number of neighbours. -/
def node_degree {n : Nat} (adj : Fin n → Fin n → Bool) (v : Fin n) : Nat :=
  ((List.finRange n).filter (fun u => adj v u)).length

/-- An entity with the metrics attached by ConnectorEngine.calculate_metrics. -/
structure BridgeEntity where
  name : String
  betweenness_centrality : ℚ
  degree : Nat
deriving DecidableEq

/-- Stable insertion by descending centrality, modelling the stable Python
list sort keyed on betweenness centrality with reverse=True. -/
def insertCentralityDesc (x : BridgeEntity) :
    List BridgeEntity → List BridgeEntity
  | [] => [x]
  | y :: ys =>
    if y.betweenness_centrality ≤ x.betweenness_centrality then x :: y :: ys
    else y :: insertCentralityDesc x ys

/-- Stable descending sort of entities by centrality. -/
def sortCentralityDesc (l : List BridgeEntity) : List BridgeEntity :=
  l.foldr insertCentralityDesc []

/-- Model of ConnectorEngine.find_bridges (src/src/analytics.py lines
115-177) on the list of entities with their computed metrics, in metrics
iteration order: keep the entities with centrality strictly above the minimum
and degree strictly below the maximum, then sort by descending centrality
with the stable list sort. -/
def find_bridges (min_centrality : ℚ) (max_degree : Nat)
    (entities : List BridgeEntity) : List BridgeEntity :=
  sortCentralityDesc (entities.filter (fun e =>
    decide (min_centrality < e.betweenness_centrality) &&
      decide (e.degree < max_degree)))

/-- Star graph on five nodes: node 0 is the centre, nodes 1-4 the leaves. -/
def starAdj : Fin 5 → Fin 5 → Bool := fun i j =>
  (i == 0 && j != 0) || (j == 0 && i != 0)

/-- Entity names of the star-graph test corpus. -/
def starName (i : Fin 5) : String :=
  ["Center", "A", "B", "C", "D"].getD i.val ""

/-- The star-graph entities with their computed metrics, in node order. -/
def starEntities : List BridgeEntity :=
  (List.finRange 5).map (fun i =>
    ⟨starName i, betweenness_centrality starAdj i, node_degree starAdj i⟩)

/-! ### Regular-expression matching for the currency extractors

AnomalyEngine.extract_currency_amounts (src/src/analytics.py lines 197-220)
and ForensicAccountant.extract_currency_amounts
(src/src/analytics/forensic_accountant.py lines 42-76) scan document text
with re.findall / re.finditer over fixed currency patterns. The engine below
implements the backtracking semantics of those patterns: character classes,
concatenation, prioritized alternation (greedy option), greedy star, and a
single capture group, with fuel making the recursion structural. -/

/-- Syntax of the regular expressions needed by the currency patterns. -/
inductive RE where
  | eps : RE
  | cls (p : Char → Bool) : RE
  | cat (a b : RE) : RE
  | alt (a b : RE) : RE
  | star (a : RE) : RE
  | group (a : RE) : RE

/-- Backtracking matcher in continuation-passing style. The continuation
receives the unconsumed rest; a successful result carries the rest after the
whole match and the capture of the group, if any. Greedy star tries a further
consuming iteration before stopping, matching the re module semantics; fuel
decreases on every call and is chosen large enough by the callers. -/
def matchRE : Nat → RE → List Char →
    (List Char → Option (List Char × Option (List Char))) →
    Option (List Char × Option (List Char))
  | 0, _, _, _ => none
  | fuel + 1, r, cs, k =>
    match r with
    | .eps => k cs
    | .cls p =>
      match cs with
      | [] => none
      | c :: rest => if p c then k rest else none
    | .cat a b => matchRE fuel a cs (fun cs2 => matchRE fuel b cs2 k)
    | .alt a b =>
      (matchRE fuel a cs k).orElse (fun _ => matchRE fuel b cs k)
    | .star a =>
      (matchRE fuel a cs (fun cs2 =>
        if cs2.length < cs.length then matchRE fuel (.star a) cs2 k
        else none)).orElse (fun _ => k cs)
    | .group a =>
      matchRE fuel a cs (fun cs2 =>
        match k cs2 with
        | some (rest, _) => some (rest, some (cs.take (cs.length - cs2.length)))
        | none => none)

/-- Leftmost match attempt at the current position, with generous fuel. -/
def matchAt (r : RE) (cs : List Char) :
    Option (List Char × Option (List Char)) :=
  matchRE ((cs.length + 1) * 100) r cs (fun rest => some (rest, none))

/-- Scan of re.finditer: repeatedly take the leftmost match, emit its group-1
capture, and resume after the match (advancing one character on an empty
match or a failure). -/
def scanAux (r : RE) : Nat → List Char → List (List Char)
  | 0, _ => []
  | fuel + 1, cs =>
    match matchAt r cs with
    | some (rest, cap) =>
      cap.getD [] ::
        (if rest.length < cs.length then scanAux r fuel rest
         else
           match cs with
           | [] => []
           | _ :: t => scanAux r fuel t)
    | none =>
      match cs with
      | [] => []
      | _ :: t => scanAux r fuel t

/-- All group-1 captures of the non-overlapping left-to-right matches of a
pattern in a text, as returned by re.findall with one capture group. -/
def findAll (r : RE) (cs : List Char) : List (List Char) :=
  scanAux r (cs.length + 1) cs

/-- ASCII decimal digit class. -/
def isDigitCh (c : Char) : Bool := 48 ≤ c.toNat && c.toNat ≤ 57

/-- Character class of a digit or a comma. -/
def isDigitOrComma (c : Char) : Bool := isDigitCh c || c == ','

/-- Single literal character. -/
def chLit (c : Char) : RE := .cls (fun x => x == c)

/-- Case-insensitive literal letter, for the IGNORECASE flag of the source
patterns. -/
def chCI (c : Char) : RE := .cls (fun x => x == c.toLower || x == c.toUpper)

/-- Greedy option: one occurrence preferred over none. -/
def reOpt (a : RE) : RE := .alt a .eps

/-- Concatenation of a list of expressions. -/
def reSeq (l : List RE) : RE := l.foldr .cat .eps

/-- Case-insensitive literal word. -/
def reWordCI (s : List Char) : RE := reSeq (s.map chCI)

/-- One decimal digit. -/
def reDigit : RE := .cls isDigitCh

/-- The subpattern of one to three digits, greedy. -/
def reD13 : RE := .cat reDigit (reOpt (.cat reDigit (reOpt reDigit)))

/-- The subpattern of zero or more comma-separated three-digit groups. -/
def reCommaGroups : RE :=
  .star (reSeq [chLit ',', reDigit, reDigit, reDigit])

/-- The optional two-digit cents subpattern. -/
def reCents : RE := reOpt (reSeq [chLit '.', reDigit, reDigit])

/-- Grouped amount core of the CURRENCY_PATTERNS of src/src/analytics.py:
one to three digits, comma groups, optional cents. -/
def reAmountStrict : RE := .cat reD13 (.cat reCommaGroups reCents)

/-- Loose amount core of forensic_accountant.py: one or more digits or
commas, an optional dot, then any digits. -/
def reAmountLoose : RE :=
  reSeq [.cls isDigitOrComma, .star (.cls isDigitOrComma),
    reOpt (chLit '.'), .star reDigit]

/-- Whitespace run as matched by the \s* of the patterns. -/
def reSpaces : RE := .star (.cls isPySpace)

/-- The three CURRENCY_PATTERNS of src/src/analytics.py lines 39-43, in
source order: dollar prefix, USD prefix, USD suffix. -/
def aePatterns : List RE :=
  [reSeq [chLit '$', reSpaces, .group reAmountStrict],
   reSeq [reWordCI ['U', 'S', 'D'], reSpaces, .group reAmountStrict],
   reSeq [.group reAmountStrict, reSpaces, reWordCI ['U', 'S', 'D']]]

/-- The three patterns of ForensicAccountant.extract_currency_amounts
(src/src/analytics/forensic_accountant.py lines 55-59), in source order:
dollar prefix, USD prefix, dollars-or-USD suffix. -/
def faPatterns : List RE :=
  [reSeq [chLit '$', reSpaces, .group reAmountLoose],
   reSeq [reWordCI ['U', 'S', 'D'], reSpaces, .group reAmountLoose],
   reSeq [.group reAmountLoose, reSpaces,
     .alt (reWordCI ['d', 'o', 'l', 'l', 'a', 'r', 's'])
       (reWordCI ['U', 'S', 'D'])]]

/-- Natural number denoted by a digit string. -/
def natOfDigits (l : List Char) : Nat :=
  l.foldl (fun acc c => 10 * acc + (c.toNat - 48)) 0

/-- Model of float() applied to a captured amount after removing commas, on
the digit-and-dot strings the captures can be: fails on an empty string or a
bare dot, otherwise reads the integer and fractional parts exactly. -/
def parse_float (s : List Char) : Option ℚ :=
  let t := s.filter (fun c => c != ',')
  if t.isEmpty then none
  else if t = ['.'] then none
  else if t.all (fun c => isDigitCh c || c == '.') &&
      (t.filter (fun c => c == '.')).length ≤ 1 then
    let intPart := t.takeWhile isDigitCh
    let fracPart := (t.dropWhile isDigitCh).drop 1
    some ((natOfDigits intPart : ℚ) +
      (natOfDigits fracPart : ℚ) / (10 ^ fracPart.length : ℚ))
  else none

/-- Amounts kept from the captures of one pattern: parsed and positive, as in
the loop bodies of both extractors. -/
def keptAmounts (r : RE) (text : List Char) : List ℚ :=
  (findAll r text).filterMap (fun g =>
    (parse_float g).bind (fun a => if 0 < a then some a else none))

/-- Model of AnomalyEngine.extract_currency_amounts (src/src/analytics.py
lines 197-220): the kept amounts of the three currency patterns, in pattern
order. -/
def extract_currency_amounts (text : List Char) : List ℚ :=
  (aePatterns.map (fun r => keptAmounts r text)).flatten

/-- Model of ForensicAccountant.extract_currency_amounts
(src/src/analytics/forensic_accountant.py lines 42-76), keeping the amounts
only (the source also records a context snippet). -/
def fa_extract_currency_amounts (text : List Char) : List ℚ :=
  (faPatterns.map (fun r => keptAmounts r text)).flatten

/-! ## Theorems -/

/-! ### Helper lemmas -/

theorem chunksOfAux_flatten {α : Type} (n : Nat) (hn : 0 < n) :
    ∀ (fuel : Nat) (l : List α), l.length ≤ fuel →
      (chunksOfAux n fuel l).flatten = l := by
  intro fuel
  induction fuel with
  | zero =>
    intro l hl
    have : l = [] := List.eq_nil_of_length_eq_zero (Nat.le_zero.mp hl)
    subst this; rfl
  | succ fuel ih =>
    intro l hl
    match l with
    | [] => rfl
    | c :: cs =>
      have hdrop : ((c :: cs).drop n).length ≤ fuel := by
        rw [List.length_drop]
        omega
      simp only [chunksOfAux, List.flatten_cons, ih _ hdrop,
        List.take_append_drop]

theorem flatten_chunksOf {α : Type} (n : Nat) (hn : 0 < n) (l : List α) :
    (chunksOf n l).flatten = l :=
  chunksOfAux_flatten n hn l.length l (Nat.le_refl _)

theorem foldl_hasher_update (chunks : List (List Nat)) :
    ∀ acc : List Nat, chunks.foldl hasher_update acc = acc ++ chunks.flatten := by
  induction chunks with
  | nil => intro acc; simp
  | cons c cs ih =>
    intro acc
    simp [hasher_update, ih, List.append_assoc]

/-! ### C1: at most one document row per content fingerprint -/

/-- C1: ingesting a byte content into a store that does not yet hold its
fingerprint (and has no filename conflict) inserts exactly one document row;
a second ingestion of the identical byte content reports the duplicate signal
(not a failure) and leaves the store unchanged, still with exactly one row
carrying that fingerprint. -/
theorem ingest_same_content_twice_single_row (store : List DocRow)
    (f1 f2 : String) (t1 t2 : List Char) (content : List Nat)
    (hno : ∀ d ∈ store, d.hash ≠ compute_file_hash content)
    (hfn : ∀ d ∈ store, d.filename ≠ f1) :
    (ingest_one store f1 content t1).2 = .inserted (store.length + 1) ∧
    count_hash (ingest_one store f1 content t1).1
      (compute_file_hash content) = 1 ∧
    ingest_one (ingest_one store f1 content t1).1 f2 content t2 =
      ((ingest_one store f1 content t1).1, .duplicate) := by
  have hany : document_exists store (compute_file_hash content) = false := by
    simp only [document_exists, List.any_eq_false]
    intro d hd
    simp [hno d hd]
  have hcond : (store.any fun d =>
      d.hash == compute_file_hash content || d.filename == f1) = false := by
    simp only [List.any_eq_false]
    intro d hd
    simp [hno d hd, hfn d hd]
  have hins : insert_document store f1 t1 (compute_file_hash content) =
      some (store ++ [⟨store.length + 1, f1, t1, compute_file_hash content⟩],
        store.length + 1) := by
    simp [insert_document, hcond]
  have hfirst : ingest_one store f1 content t1 =
      (store ++ [⟨store.length + 1, f1, t1, compute_file_hash content⟩],
        .inserted (store.length + 1)) := by
    simp [ingest_one, hany, hins]
  refine ⟨by rw [hfirst], ?_, ?_⟩
  · rw [hfirst]
    simp only [count_hash, List.filter_append]
    have h0 : store.filter (fun d => d.hash == compute_file_hash content) = [] := by
      rw [List.filter_eq_nil_iff]
      intro d hd
      simp [hno d hd]
    rw [h0]
    simp
  · rw [hfirst]
    have hdup : document_exists
        (store ++ [⟨store.length + 1, f1, t1, compute_file_hash content⟩])
        (compute_file_hash content) = true := by
      simp [document_exists]
    simp [ingest_one, hdup]

/-- C1 witness: ingesting the one-byte content 65 twice into the empty store. -/
theorem ingest_same_content_twice_single_row_witness :
    (ingest_one [] "a.txt" [65] ['x']).2 = .inserted 1 ∧
    count_hash (ingest_one [] "a.txt" [65] ['x']).1
      (compute_file_hash [65]) = 1 ∧
    ingest_one (ingest_one [] "a.txt" [65] ['x']).1 "b.txt" [65] ['y'] =
      ((ingest_one [] "a.txt" [65] ['x']).1, .duplicate) := by
  exact ingest_same_content_twice_single_row [] "a.txt" "b.txt" ['x'] ['y']
    [65] (fun d hd => absurd hd (List.not_mem_nil d))
    (fun d hd => absurd hd (List.not_mem_nil d))

/-! ### C2: the content fingerprint -/

/-- C2 counterexample: compute_document_hash is not a function of the entire
document content — two texts of equal length that differ only beyond the
first 1000 characters receive the same digest, because the source hashes
filename plus only text[:1000]. -/
theorem compute_document_hash_ignores_tail_bytes :
    compute_document_hash "a.txt" (List.replicate 1000 'x' ++ ['y']) =
      compute_document_hash "a.txt" (List.replicate 1000 'x' ++ ['z']) ∧
    List.replicate 1000 'x' ++ ['y'] ≠ List.replicate 1000 'x' ++ ['z'] := by
  have hy : List.take 1000 (List.replicate 1000 'x' ++ ['y']) =
      List.replicate 1000 'x' := by
    rw [List.take_left']; simp
  have hz : List.take 1000 (List.replicate 1000 'x' ++ ['z']) =
      List.replicate 1000 'x' := by
    rw [List.take_left']; simp
  constructor
  · unfold compute_document_hash
    rw [hy, hz]
  · intro h
    have h2 := List.append_cancel_left h
    simp at h2

/-- C2 (amended): the file fingerprint compute_file_hash is a deterministic
function of the entire byte content, and the chunked streaming computation
yields the same digest as hashing the whole content at once. (The
per-document hash of analytics/database.py does not satisfy the original
claim: it also depends on the filename and reads only the first 1000 text
characters, as the counterexample shows.) -/
theorem compute_file_hash_streams_whole_content (c1 c2 : List Nat) :
    compute_file_hash c1 = sha256hex c1 ∧
    (c1 = c2 → compute_file_hash c1 = compute_file_hash c2) := by
  constructor
  · unfold compute_file_hash
    rw [foldl_hasher_update, List.nil_append,
      flatten_chunksOf 4096 (by norm_num)]
  · intro h; rw [h]

/-- C2 witness: the empty byte content. -/
theorem compute_file_hash_streams_whole_content_witness :
    compute_file_hash [] = sha256hex [] ∧
    compute_file_hash [] = compute_file_hash [] :=
  ⟨(compute_file_hash_streams_whole_content [] []).1,
   (compute_file_hash_streams_whole_content [] []).2 rfl⟩

/-! ### C10: the dedup state is only extended on successful extraction -/

/-- C10: process_file adds a fingerprint to the processed-hashes state only
after text extraction succeeds. A call that fails (hash failure, unsupported
type, or failed extraction) leaves the dedup state unchanged and returns no
text; a later attempt on the same state for content whose hash is not yet
recorded is not treated as a duplicate: it is retried, and on successful
extraction it returns the cleaned text and only then records the hash. -/
theorem process_file_marks_only_after_success (s : List String)
    (f g : FileModel) (h : String) (t : List Char)
    (hfail : f.hashResult = none ∨ f.extractResult = none ∨
      f.supported = false)
    (hg : g.hashResult = some h) (hgs : g.supported = true)
    (hge : g.extractResult = some t) (hnew : h ∉ s) :
    (process_file s f).1 = s ∧
    (process_file s f).2.2 = none ∧
    process_file s g = (h :: s, (some h, some (clean_text t))) := by
  have hmark : mark_as_processed s h = h :: s := by
    rw [mark_as_processed, if_neg]
    simpa using hnew
  have hdup : is_duplicate s h = false := by
    simp [is_duplicate, hnew]
  have hbody : (process_file s f).1 = s ∧ (process_file s f).2.2 = none := by
    cases hf : f.hashResult with
    | none => simp [process_file, hf]
    | some hh =>
      by_cases hd : is_duplicate s hh = true
      · simp [process_file, hf, hd]
      · by_cases hs : f.supported = true
        · rcases hfail with h1 | h1 | h1
          · rw [hf] at h1; exact absurd h1 (by simp)
          · simp [process_file, hf, hd, hs, h1]
          · rw [hs] at h1; exact absurd h1 (by simp)
        · simp [process_file, hf, hd, hs]
  exact ⟨hbody.1, hbody.2, by simp [process_file, hg, hdup, hgs, hge, hmark]⟩

/-- C10 witness: a failed extraction followed by a successful retry of the
same content on the unchanged state. -/
theorem process_file_marks_only_after_success_witness :
    (process_file [] ⟨some "h0", true, none⟩).1 = [] ∧
    (process_file [] ⟨some "h0", true, none⟩).2.2 = none ∧
    process_file [] ⟨some "h0", true, some ['a']⟩ =
      (["h0"], (some "h0", some (clean_text ['a']))) := by
  exact process_file_marks_only_after_success []
    ⟨some "h0", true, none⟩ ⟨some "h0", true, some ['a']⟩ "h0" ['a']
    (Or.inr (Or.inl rfl)) rfl rfl rfl (List.not_mem_nil "h0")

/-! ### C3, C4: the Benford anomaly engine -/

theorem first_digit_natCast (n : Nat) : first_digit (n : ℚ) = msd n := by
  simp [first_digit]

theorem first_digits_sequential :
    first_digits sequentialAmounts = List.replicate 60 1 := by
  rw [first_digits, sequentialAmounts, List.map_map]
  simp only [Function.comp_def]
  rw [List.map_congr_left (fun x _ => first_digit_natCast (100 + x))]
  decide

theorem chi_square_sequential :
    chi_square_test (observed_freq sequentialAmounts) benfords_distribution 60 =
      41940 / 301 := by
  have hobs : ∀ d, observed_freq sequentialAmounts d =
      ((List.replicate 60 1).count d : ℚ) / 60 := by
    intro d
    simp [observed_freq, first_digits_sequential]
  norm_num [chi_square_test, digitsRange, hobs, benfords_distribution,
    List.count_replicate]

/-- C3: on the synthetic document whose extracted sample is the sixty numbers
100 to 159 (all leading digit 1), the engine reports sample size 60, computes
the chi-square statistic of the claim formula (observed count minus expected
count squared over expected count, with expected count the Benford
probability times 60; its exact value is 41940/301), and flags a violation
since it exceeds the threshold 15.507. -/
theorem benford_sequential_flags_violation :
    benford_document_check sequentialAmounts 30 (15507 / 1000) =
      some ⟨60, 41940 / 301⟩ ∧
    (41940 / 301 : ℚ) = (digitsRange.map (fun d =>
      (((first_digits sequentialAmounts).count d : ℚ) -
        benfords_distribution d * 60) ^ 2 /
          (benfords_distribution d * 60))).sum ∧
    (15507 / 1000 : ℚ) < 41940 / 301 := by
  have hlen : sequentialAmounts.length = 60 := by simp [sequentialAmounts]
  refine ⟨?_, ?_, by norm_num⟩
  · have hne : first_digits sequentialAmounts ≠ [] := by
      rw [first_digits_sequential]; decide
    rw [benford_document_check, hlen, chi_square_sequential]
    norm_num [hne]
  · norm_num [digitsRange, first_digits_sequential, benfords_distribution,
      List.count_replicate]

theorem filterMap_replicate_some {α β : Type} (f : α → Option β) (a : α)
    (b : β) (h : f a = some b) :
    ∀ n, (List.replicate n a).filterMap f = List.replicate n b := by
  intro n
  induction n with
  | zero => rfl
  | succ n ih =>
    rw [List.replicate_succ, List.filterMap_cons, h, ih, List.replicate_succ]

theorem get_leading_digit_900 : get_leading_digit (900 : ℚ) = some 9 := by
  have hfl : ⌊(900 : ℚ)⌋ = 900 := by norm_num
  have hrd : roundHalfEven (900 : ℚ) = 900 := by
    rw [roundHalfEven, hfl, if_pos (by norm_num)]
  rw [get_leading_digit, hrd]
  rfl

/-- C4 counterexample: the pooled Benford test of the forensic accountant has
no minimum-sample-size check. On a corpus whose extracted amounts are
twenty-nine values 900 — a sample below the minimum 30 with every leading
digit 9 — it reports a result with is_suspicious set (chi-square 13833/23,
about 601.4, far above the df=8 critical value) instead of skipping the
sample or reporting it as not enough data. -/
theorem fa_benford_flags_small_skewed_sample :
    fa_benford_test (List.replicate 29 (900 : ℚ)) =
      some ⟨29, 13833 / 23, true⟩ ∧ (29 : Nat) < 30 := by
  refine ⟨?_, by norm_num⟩
  have hds : (List.replicate 29 (900 : ℚ)).filterMap get_leading_digit =
      List.replicate 29 9 :=
    filterMap_replicate_some get_leading_digit 900 9 get_leading_digit_900 29
  have hsusp : (15507 / 1000 : ℚ) < 13833 / 23 := by norm_num
  simp only [fa_benford_test, hds]
  rw [if_neg (by simp), if_neg (by simp)]
  have hchi : (digitsRange.map (fun d =>
      (((List.replicate 29 9).count d : ℚ) -
        benfords_distribution d * (List.replicate 29 9).length) ^ 2 /
          (benfords_distribution d * (List.replicate 29 9).length))).sum =
      13833 / 23 := by
    norm_num [digitsRange, benfords_distribution, List.count_replicate]
  rw [hchi, decide_eq_true hsusp]
  simp

/-- C4 (amended): a document whose extracted sample is smaller than the
minimum sample size is skipped by the per-document Benford engine of
analytics.py: no violation record is produced for it, regardless of how
skewed its leading digits are. (The pooled ForensicAccountant.benford_test
performs no such minimum-sample check and can flag a sub-30 skewed sample,
as the counterexample shows.) -/
theorem benford_small_sample_never_flagged (amounts : List ℚ) (m : Nat)
    (θ : ℚ) (h : amounts.length < m) :
    benford_document_check amounts m θ = none := by
  simp [benford_document_check, h]

/-- C4 witness: twenty-nine amounts all starting with the digit 9, a maximally
skewed sample below the default minimum of 30, yields no violation. -/
theorem benford_small_sample_never_flagged_witness :
    benford_document_check (List.replicate 29 (900 : ℚ)) 30 (15507 / 1000) =
      none :=
  benford_small_sample_never_flagged _ _ _ (by simp)

/-! ### C8: the timeline silence-interval detector -/

theorem mem_insertGapDesc (x a : SilenceInterval) (l : List SilenceInterval) :
    a ∈ insertGapDesc x l ↔ a = x ∨ a ∈ l := by
  induction l with
  | nil => simp [insertGapDesc]
  | cons y ys ih =>
    rw [insertGapDesc]
    split
    · simp
    · simp only [List.mem_cons, ih]
      tauto

theorem mem_sortGapsDesc (a : SilenceInterval) (l : List SilenceInterval) :
    a ∈ sortGapsDesc l ↔ a ∈ l := by
  induction l with
  | nil => simp [sortGapsDesc]
  | cons y ys ih =>
    rw [sortGapsDesc, List.foldr_cons, mem_insertGapDesc]
    rw [sortGapsDesc] at ih
    simp [ih]

/-- C8: on the corpus whose parsed dates are 2005-03-10, 2005-04-25 and
2005-07-15 with threshold 20 days, the detector reports exactly the two
intervals of 81 days (April 25 to July 15) and 46 days (March 10 to
April 25), the 81-day gap first; and in general an interval is reported
exactly when it is a consecutive pair of the deduplicated sorted corpus dates
whose gap strictly exceeds the threshold. -/
theorem silence_intervals_boundary_and_threshold :
    (find_silence_intervals [⟨2005, 3, 10⟩, ⟨2005, 4, 25⟩, ⟨2005, 7, 15⟩] 20 =
      [⟨⟨2005, 4, 25⟩, ⟨2005, 7, 15⟩, 81⟩,
       ⟨⟨2005, 3, 10⟩, ⟨2005, 4, 25⟩, 46⟩]) ∧
    ∀ (dates : List DateYMD) (g : Nat) (iv : SilenceInterval),
      iv ∈ find_silence_intervals dates g ↔
        (2 ≤ dates.length ∧
          ∃ p ∈ (unique_sorted_dates dates).zip (unique_sorted_dates dates).tail,
            g < toOrdinal p.2 - toOrdinal p.1 ∧
            iv = ⟨p.1, p.2, toOrdinal p.2 - toOrdinal p.1⟩) := by
  constructor
  · decide
  · intro dates g iv
    rw [find_silence_intervals]
    split
    · rename_i hlt
      simp only [List.not_mem_nil, false_iff, not_and]
      intro hge
      omega
    · rename_i hge
      rw [mem_sortGapsDesc]
      simp only [List.mem_filterMap, Option.ite_none_right_eq_some,
        Option.some.injEq]
      constructor
      · rintro ⟨p, hp, hgap, rfl⟩
        exact ⟨by omega, p, hp, hgap, rfl⟩
      · rintro ⟨-, p, hp, hgap, rfl⟩
        exact ⟨p, hp, hgap, rfl⟩

/-! ### C6, C7: bridge detection -/

theorem mem_insertCentralityDesc (x a : BridgeEntity) (l : List BridgeEntity) :
    a ∈ insertCentralityDesc x l ↔ a = x ∨ a ∈ l := by
  induction l with
  | nil => simp [insertCentralityDesc]
  | cons y ys ih =>
    rw [insertCentralityDesc]
    split
    · simp
    · simp only [List.mem_cons, ih]
      tauto

theorem mem_sortCentralityDesc (a : BridgeEntity) (l : List BridgeEntity) :
    a ∈ sortCentralityDesc l ↔ a ∈ l := by
  induction l with
  | nil => simp [sortCentralityDesc]
  | cons y ys ih =>
    rw [sortCentralityDesc, List.foldr_cons, mem_insertCentralityDesc]
    rw [sortCentralityDesc] at ih
    simp [ih]

theorem pairwise_insertCentralityDesc (x : BridgeEntity)
    (l : List BridgeEntity)
    (h : l.Pairwise (fun a b =>
      b.betweenness_centrality ≤ a.betweenness_centrality)) :
    (insertCentralityDesc x l).Pairwise (fun a b =>
      b.betweenness_centrality ≤ a.betweenness_centrality) := by
  induction l with
  | nil => simp [insertCentralityDesc]
  | cons y ys ih =>
    rw [List.pairwise_cons] at h
    rw [insertCentralityDesc]
    split
    · rename_i hle
      rw [List.pairwise_cons]
      refine ⟨?_, List.pairwise_cons.mpr h⟩
      intro b hb
      rcases List.mem_cons.mp hb with rfl | hb2
      · exact hle
      · exact le_trans (h.1 b hb2) hle
    · rename_i hgt
      rw [List.pairwise_cons]
      refine ⟨?_, ih h.2⟩
      intro b hb
      rcases (mem_insertCentralityDesc x b ys).mp hb with rfl | hb2
      · exact le_of_lt (lt_of_not_le hgt)
      · exact h.1 b hb2

theorem pairwise_sortCentralityDesc (l : List BridgeEntity) :
    (sortCentralityDesc l).Pairwise (fun a b =>
      b.betweenness_centrality ≤ a.betweenness_centrality) := by
  induction l with
  | nil => simp [sortCentralityDesc]
  | cons y ys ih =>
    rw [sortCentralityDesc, List.foldr_cons]
    rw [sortCentralityDesc] at ih
    exact pairwise_insertCentralityDesc y _ ih

theorem star_bc_center : betweenness_centrality starAdj 0 = 1 := by
  rw [betweenness_centrality]
  rw [show (fun p : Fin 5 × Fin 5 =>
      ((sigmaThrough starAdj 0 p.1 p.2 : ℚ) / (sigmaCount starAdj p.1 p.2 : ℚ))) =
    (fun q : Nat × Nat => (q.1 : ℚ) / (q.2 : ℚ)) ∘
      (fun p : Fin 5 × Fin 5 =>
        (sigmaThrough starAdj 0 p.1 p.2, sigmaCount starAdj p.1 p.2)) from rfl]
  rw [← List.map_map]
  rw [show (allPairs 5).map (fun p : Fin 5 × Fin 5 =>
      (sigmaThrough starAdj 0 p.1 p.2, sigmaCount starAdj p.1 p.2)) =
    [(0, 1), (0, 1), (0, 1), (0, 1), (0, 1),
     (0, 1), (0, 1), (1, 1), (1, 1), (1, 1),
     (0, 1), (1, 1), (0, 1), (1, 1), (1, 1),
     (0, 1), (1, 1), (1, 1), (0, 1), (1, 1),
     (0, 1), (1, 1), (1, 1), (1, 1), (0, 1)] from by decide]
  norm_num

theorem star_sigmaThrough_leaf :
    ∀ i : Fin 5, i ≠ 0 → ∀ p ∈ allPairs 5,
      sigmaThrough starAdj i p.1 p.2 = 0 := by
  decide

theorem star_bc_leaf (i : Fin 5) (hi : i ≠ 0) :
    betweenness_centrality starAdj i = 0 := by
  rw [betweenness_centrality, List.sum_eq_zero, zero_div]
  intro x hx
  rw [List.mem_map] at hx
  obtain ⟨p, hp, rfl⟩ := hx
  rw [star_sigmaThrough_leaf i hi p hp]
  simp

/-- C6: in the star graph whose centre co-occurs with each of the four leaves
in a distinct document while the leaves never co-occur, the centre has
strictly greater betweenness centrality than every leaf (1 versus 0), its
degree is 4, and whenever the configured minimum centrality is below the
centre centrality and the configured maximum degree is above 4, the centre
appears in the bridge list. -/
theorem star_center_is_bridge (minC : ℚ) (maxD : Nat)
    (h1 : minC < betweenness_centrality starAdj 0) (h2 : 4 < maxD) :
    (∀ i : Fin 5, i ≠ 0 →
      betweenness_centrality starAdj i < betweenness_centrality starAdj 0) ∧
    node_degree starAdj 0 = 4 ∧
    (⟨"Center", betweenness_centrality starAdj 0, node_degree starAdj 0⟩ :
      BridgeEntity) ∈ find_bridges minC maxD starEntities := by
  have hdeg : node_degree starAdj 0 = 4 := by decide
  refine ⟨?_, hdeg, ?_⟩
  · intro i hi
    rw [star_bc_leaf i hi, star_bc_center]
    norm_num
  · rw [find_bridges, mem_sortCentralityDesc, List.mem_filter]
    refine ⟨List.mem_map.mpr ⟨0, List.mem_finRange 0, rfl⟩, ?_⟩
    simp only [Bool.and_eq_true, decide_eq_true_eq]
    exact ⟨h1, by rw [hdeg]; exact h2⟩

/-- C6 witness: the default thresholds, minimum centrality 0.1 and maximum
degree 5. -/
theorem star_center_is_bridge_witness :
    (∀ i : Fin 5, i ≠ 0 →
      betweenness_centrality starAdj i < betweenness_centrality starAdj 0) ∧
    node_degree starAdj 0 = 4 ∧
    (⟨"Center", betweenness_centrality starAdj 0, node_degree starAdj 0⟩ :
      BridgeEntity) ∈ find_bridges (1 / 10) 5 starEntities :=
  star_center_is_bridge (1 / 10) 5
    (by rw [star_bc_center]; norm_num) (by norm_num)

/-- specBridgeOrder: the output ordering asserted by the specification,
stated from its words — descending centrality, ties broken by descending
degree, remaining ties by entity name. -/
def specBridgeOrder (a b : BridgeEntity) : Prop :=
  b.betweenness_centrality < a.betweenness_centrality ∨
    (b.betweenness_centrality = a.betweenness_centrality ∧
      (b.degree < a.degree ∨ (b.degree = a.degree ∧ a.name ≤ b.name)))

/-- C7 counterexample: two qualifying entities tied on centrality are
returned in their metrics iteration order (the stable sort keeps insertion
order), not re-ordered by descending degree or by name: with the tied pair
Z (degree 1) before A (degree 3) the output keeps Z first, violating the
claimed tie-break order. -/
theorem find_bridges_tie_order_cx :
    find_bridges (1 / 10) 5 [⟨"Z", 1 / 2, 1⟩, ⟨"A", 1 / 2, 3⟩] =
      [⟨"Z", 1 / 2, 1⟩, ⟨"A", 1 / 2, 3⟩] ∧
    ¬ (find_bridges (1 / 10) 5 [⟨"Z", 1 / 2, 1⟩, ⟨"A", 1 / 2, 3⟩]).Pairwise
      specBridgeOrder := by
  have hfil : List.filter (fun e : BridgeEntity =>
      decide ((1 : ℚ) / 10 < e.betweenness_centrality) && decide (e.degree < 5))
      [(⟨"Z", 1 / 2, 1⟩ : BridgeEntity), ⟨"A", 1 / 2, 3⟩] =
      [(⟨"Z", 1 / 2, 1⟩ : BridgeEntity), ⟨"A", 1 / 2, 3⟩] := by
    simp only [List.filter_cons, List.filter_nil]
    norm_num
  have heval : find_bridges (1 / 10) 5 [⟨"Z", 1 / 2, 1⟩, ⟨"A", 1 / 2, 3⟩] =
      [⟨"Z", 1 / 2, 1⟩, ⟨"A", 1 / 2, 3⟩] := by
    rw [find_bridges, hfil]
    rw [sortCentralityDesc, List.foldr_cons, List.foldr_cons, List.foldr_nil,
      insertCentralityDesc, insertCentralityDesc]
    rw [if_pos (le_refl ((1 : ℚ) / 2))]
  refine ⟨heval, ?_⟩
  rw [heval]
  intro h
  have h2 := (List.pairwise_cons.mp h).1 _ (List.mem_cons_self _ _)
  rcases h2 with hlt | ⟨-, hdeg | ⟨hdegeq, -⟩⟩
  · exact absurd (show (1 : ℚ) / 2 < 1 / 2 from hlt) (by norm_num)
  · exact absurd (show (3 : Nat) < 1 from hdeg) (by decide)
  · exact absurd (show (3 : Nat) = 1 from hdegeq) (by decide)

/-- C7 (amended): find_bridges returns exactly the entities whose centrality
strictly exceeds the configurable minimum and whose degree is strictly below
the configurable maximum, ordered by descending centrality; ties are kept in
the metrics iteration order by the stable sort (the original claim's
degree-then-name tie-break is not performed, as the counterexample shows). -/
theorem find_bridges_selection_and_descending (minC : ℚ) (maxD : Nat)
    (l : List BridgeEntity) (e : BridgeEntity) :
    (e ∈ find_bridges minC maxD l ↔
      e ∈ l ∧ minC < e.betweenness_centrality ∧ e.degree < maxD) ∧
    (find_bridges minC maxD l).Pairwise (fun a b =>
      b.betweenness_centrality ≤ a.betweenness_centrality) := by
  constructor
  · rw [find_bridges, mem_sortCentralityDesc, List.mem_filter]
    simp [and_assoc]
  · rw [find_bridges]
    exact pairwise_sortCentralityDesc _

/-! ### C5: the currency extractors -/

theorem isDigitCh_ne_comma {c : Char} (h : isDigitCh c = true) :
    (c != ',') = true := by
  simp only [bne_iff_ne, ne_eq]
  intro he
  rw [he] at h
  exact absurd h (by decide)

theorem isDigitCh_ne_dot {c : Char} (h : isDigitCh c = true) :
    (c == '.') = false := by
  simp only [beq_eq_false_iff_ne, ne_eq]
  intro he
  rw [he] at h
  exact absurd h (by decide)

theorem parse_float_digits (l : List Char) (hne : l ≠ [])
    (hd : ∀ c ∈ l, isDigitCh c = true) :
    parse_float l = some (natOfDigits l : ℚ) := by
  have hfil : l.filter (fun c => c != ',') = l :=
    List.filter_eq_self.mpr (fun c hc => isDigitCh_ne_comma (hd c hc))
  have hdrop : l.dropWhile isDigitCh = [] :=
    List.dropWhile_eq_nil_iff.mpr (fun c hc => hd c hc)
  have htake : l.takeWhile isDigitCh = l := by
    have happ := @List.takeWhile_append_dropWhile _ isDigitCh l
    rw [hdrop, List.append_nil] at happ
    exact happ
  simp only [parse_float, hfil]
  rw [if_neg (by simp [hne]), if_neg ?hdot, if_pos ?hok]
  case hdot =>
    intro he
    exact absurd (hd '.' (by rw [he]; exact List.mem_singleton_self '.'))
      (by decide)
  case hok =>
    rw [Bool.and_eq_true]
    constructor
    · rw [List.all_eq_true]
      intro c hc
      simp [hd c hc]
    · have : l.filter (fun c => c == '.') = [] :=
        List.filter_eq_nil_iff.mpr (fun c hc => by
          simp [isDigitCh_ne_dot (hd c hc)])
      simp [this]
  rw [hdrop, htake]
  norm_num [natOfDigits]

/-- C5 counterexample: the extractors do not require two digits and do not
exclude 4-digit calendar years 1900-2099: the anomaly engine extracts the
single-digit amount 5 from the text dollar-5, and the forensic accountant
extracts the year-like amount 1934 from the text dollar-1934 — both values
enter the Benford sample. -/
theorem currency_extraction_no_year_exclusion :
    extract_currency_amounts "$5".data = [5] ∧
    fa_extract_currency_amounts "$1934".data = [1934] := by
  have hp5 : parse_float ['5'] = some 5 := by
    rw [parse_float_digits ['5'] (by decide) (by decide),
      show natOfDigits ['5'] = 5 from by decide]
    norm_num
  have hp1934 : parse_float ['1', '9', '3', '4'] = some 1934 := by
    rw [parse_float_digits ['1', '9', '3', '4'] (by decide) (by decide),
      show natOfDigits ['1', '9', '3', '4'] = 1934 from by decide]
    norm_num
  constructor
  · have f1 : findAll (reSeq [chLit '$', reSpaces, RE.group reAmountStrict])
        "$5".data = [['5']] := by decide
    have f2 : findAll (reSeq [reWordCI ['U', 'S', 'D'], reSpaces,
        RE.group reAmountStrict]) "$5".data = [] := by decide
    have f3 : findAll (reSeq [RE.group reAmountStrict, reSpaces,
        reWordCI ['U', 'S', 'D']]) "$5".data = [] := by decide
    rw [extract_currency_amounts]
    simp only [aePatterns, List.map_cons, List.map_nil, keptAmounts,
      List.flatten_cons, List.flatten_nil]
    rw [f1, f2, f3]
    simp [hp5]
  · have f1 : findAll (reSeq [chLit '$', reSpaces, RE.group reAmountLoose])
        "$1934".data = [['1', '9', '3', '4']] := by decide
    have f2 : findAll (reSeq [reWordCI ['U', 'S', 'D'], reSpaces,
        RE.group reAmountLoose]) "$1934".data = [] := by decide
    have f3 : findAll (reSeq [RE.group reAmountLoose, reSpaces,
        .alt (reWordCI ['d', 'o', 'l', 'l', 'a', 'r', 's'])
          (reWordCI ['U', 'S', 'D'])]) "$1934".data = [] := by decide
    rw [fa_extract_currency_amounts]
    simp only [faPatterns, List.map_cons, List.map_nil, keptAmounts,
      List.flatten_cons, List.flatten_nil]
    rw [f1, f2, f3]
    simp [hp1934]

/-- C5 (amended): the per-document numeric extraction matches the
currency-annotated patterns (dollar or USD adjacent) and keeps every
positive parsed amount; it imposes no two-digit minimum and performs no
exclusion of apparent 4-digit calendar years — a single-digit amount and a
1900-2099 year-like amount both enter the sample, as witnessed on the texts
dollar-7 and dollar-2050. -/
theorem currency_extraction_positive_and_unfiltered :
    (∀ (text : List Char) (a : ℚ),
      a ∈ extract_currency_amounts text → 0 < a) ∧
    extract_currency_amounts "$7".data = [7] ∧
    fa_extract_currency_amounts "$2050".data = [2050] := by
  refine ⟨?_, ?_, ?_⟩
  · intro t a ha
    rw [extract_currency_amounts] at ha
    obtain ⟨l, hl, hal⟩ := List.mem_flatten.mp ha
    obtain ⟨r, hr, rfl⟩ := List.mem_map.mp hl
    rw [keptAmounts] at hal
    obtain ⟨g, hg, heq⟩ := List.mem_filterMap.mp hal
    cases hpf : parse_float g with
    | none =>
      rw [hpf] at heq
      exact Option.noConfusion heq
    | some q =>
      rw [hpf] at heq
      simp only [Option.some_bind] at heq
      split at heq
      · rename_i h0
        rw [Option.some.injEq] at heq
        rw [← heq]
        exact h0
      · exact Option.noConfusion heq
  · have hp7 : parse_float ['7'] = some 7 := by
      rw [parse_float_digits ['7'] (by decide) (by decide),
        show natOfDigits ['7'] = 7 from by decide]
      norm_num
    have f1 : findAll (reSeq [chLit '$', reSpaces, RE.group reAmountStrict])
        "$7".data = [['7']] := by decide
    have f2 : findAll (reSeq [reWordCI ['U', 'S', 'D'], reSpaces,
        RE.group reAmountStrict]) "$7".data = [] := by decide
    have f3 : findAll (reSeq [RE.group reAmountStrict, reSpaces,
        reWordCI ['U', 'S', 'D']]) "$7".data = [] := by decide
    rw [extract_currency_amounts]
    simp only [aePatterns, List.map_cons, List.map_nil, keptAmounts,
      List.flatten_cons, List.flatten_nil]
    rw [f1, f2, f3]
    simp [hp7]
  · have hp2050 : parse_float ['2', '0', '5', '0'] = some 2050 := by
      rw [parse_float_digits ['2', '0', '5', '0'] (by decide) (by decide),
        show natOfDigits ['2', '0', '5', '0'] = 2050 from by decide]
      norm_num
    have f1 : findAll (reSeq [chLit '$', reSpaces, RE.group reAmountLoose])
        "$2050".data = [['2', '0', '5', '0']] := by decide
    have f2 : findAll (reSeq [reWordCI ['U', 'S', 'D'], reSpaces,
        RE.group reAmountLoose]) "$2050".data = [] := by decide
    have f3 : findAll (reSeq [RE.group reAmountLoose, reSpaces,
        .alt (reWordCI ['d', 'o', 'l', 'l', 'a', 'r', 's'])
          (reWordCI ['U', 'S', 'D'])]) "$2050".data = [] := by decide
    rw [fa_extract_currency_amounts]
    simp only [faPatterns, List.map_cons, List.map_nil, keptAmounts,
      List.flatten_cons, List.flatten_nil]
    rw [f1, f2, f3]
    simp [hp2050]

/-- C5 witness: the amount 7 extracted from the text dollar-7 is positive. -/
theorem currency_extraction_positive_and_unfiltered_witness :
    (0 : ℚ) < 7 ∧ extract_currency_amounts "$7".data = [7] :=
  ⟨currency_extraction_positive_and_unfiltered.1 "$7".data 7
    (by rw [currency_extraction_positive_and_unfiltered.2.1]
        exact List.mem_singleton_self 7),
   currency_extraction_positive_and_unfiltered.2.1⟩

/-! ### C9: text normalization -/

/-- C9 counterexample: clean_text is not idempotent. On the input consisting
of the control character 0x01, a space, the letter a, a space and 0x01
again, the first pass removes the control characters only after stripping,
leaving a string with a leading and a trailing space; a second pass strips
them, so applying clean_text twice differs from applying it once. -/
theorem clean_text_not_idempotent :
    clean_text (clean_text [Char.ofNat 1, ' ', 'a', ' ', Char.ofNat 1]) ≠
      clean_text [Char.ofNat 1, ' ', 'a', ' ', Char.ofNat 1] := by decide

theorem collapseWSAux_mem (l : List Char) :
    ∀ (b : Bool), ∀ c ∈ collapseWSAux b l, c = ' ' ∨ c ∈ l := by
  induction l with
  | nil => intro b c hc; exact absurd hc (List.not_mem_nil c)
  | cons d ds ih =>
    intro b c hc
    rw [collapseWSAux] at hc
    by_cases hd : isPySpace d = true
    · rw [if_pos hd] at hc
      cases b with
      | true =>
        rcases ih true c hc with h1 | h1
        · exact Or.inl h1
        · exact Or.inr (List.mem_cons_of_mem d h1)
      | false =>
        rw [if_neg Bool.false_ne_true] at hc
        rcases List.mem_cons.mp hc with rfl | hc2
        · exact Or.inl rfl
        · rcases ih true c hc2 with h1 | h1
          · exact Or.inl h1
          · exact Or.inr (List.mem_cons_of_mem d h1)
    · rw [if_neg hd] at hc
      rcases List.mem_cons.mp hc with rfl | hc2
      · exact Or.inr (List.mem_cons_self c ds)
      · rcases ih false c hc2 with h1 | h1
        · exact Or.inl h1
        · exact Or.inr (List.mem_cons_of_mem d h1)

theorem collapseWSAux_space_eq (l : List Char) :
    ∀ (b : Bool), ∀ c ∈ collapseWSAux b l, isPySpace c = true → c = ' ' := by
  induction l with
  | nil => intro b c hc; exact absurd hc (List.not_mem_nil c)
  | cons d ds ih =>
    intro b c hc hsp
    rw [collapseWSAux] at hc
    by_cases hd : isPySpace d = true
    · rw [if_pos hd] at hc
      cases b with
      | true => exact ih true c hc hsp
      | false =>
        rw [if_neg Bool.false_ne_true] at hc
        rcases List.mem_cons.mp hc with rfl | hc2
        · rfl
        · exact ih true c hc2 hsp
    · rw [if_neg hd] at hc
      rcases List.mem_cons.mp hc with rfl | hc2
      · exact absurd hsp hd
      · exact ih false c hc2 hsp

theorem collapseWSAux_true_head (l : List Char) :
    ∀ c, (collapseWSAux true l).head? = some c → isPySpace c = false := by
  induction l with
  | nil => intro c hc; exact absurd hc (by simp [collapseWSAux])
  | cons d ds ih =>
    intro c hc
    rw [collapseWSAux] at hc
    by_cases hd : isPySpace d = true
    · rw [if_pos hd, if_pos rfl] at hc
      exact ih c hc
    · rw [if_neg hd] at hc
      rw [List.head?_cons, Option.some.injEq] at hc
      rw [← hc]
      exact Bool.eq_false_iff.mpr hd

theorem collapseWSAux_chain (l : List Char) :
    ∀ (b : Bool), List.Chain'
      (fun a c => ¬(isPySpace a = true ∧ isPySpace c = true))
      (collapseWSAux b l) := by
  induction l with
  | nil => intro b; simp [collapseWSAux]
  | cons d ds ih =>
    intro b
    rw [collapseWSAux]
    by_cases hd : isPySpace d = true
    · rw [if_pos hd]
      cases b with
      | true => exact ih true
      | false =>
        rw [if_neg Bool.false_ne_true]
        rw [List.chain'_cons']
        refine ⟨?_, ih true⟩
        intro c hc
        intro hcon
        rw [collapseWSAux_true_head ds c hc] at hcon
        exact Bool.false_ne_true hcon.2
    · rw [if_neg hd]
      rw [List.chain'_cons']
      refine ⟨?_, ih false⟩
      intro c _ hcon
      exact hd hcon.1

theorem collapseWSAux_id (l : List Char) :
    ∀ (b : Bool),
      (∀ c ∈ l, isPySpace c = true → c = ' ') →
      List.Chain' (fun a c => ¬(isPySpace a = true ∧ isPySpace c = true)) l →
      (b = true → ∀ c, l.head? = some c → isPySpace c = false) →
      collapseWSAux b l = l := by
  induction l with
  | nil => intro b _ _ _; rfl
  | cons d ds ih =>
    intro b hws hch hhd
    rw [List.chain'_cons'] at hch
    rw [collapseWSAux]
    by_cases hd : isPySpace d = true
    · cases b with
      | true =>
        exact absurd hd (by simp [hhd rfl d])
      | false =>
        rw [if_pos hd, if_neg Bool.false_ne_true]
        have hdsp : d = ' ' := hws d (List.mem_cons_self d ds) hd
        subst hdsp
        rw [ih true (fun c hc => hws c (List.mem_cons_of_mem _ hc)) hch.2
          (fun _ c hc => by
            have hpc := hch.1 c hc
            rw [Bool.eq_false_iff]
            intro hcsp
            exact hpc ⟨by decide, hcsp⟩)]
    · rw [if_neg hd]
      rw [ih false (fun c hc => hws c (List.mem_cons_of_mem _ hc)) hch.2
        (fun hfalse => by exact absurd hfalse (by simp))]

theorem dropWhile_head_not (l : List Char) :
    ∀ c, (l.dropWhile isPySpace).head? = some c → isPySpace c = false := by
  induction l with
  | nil => intro c hc; exact absurd hc (by simp)
  | cons d ds ih =>
    intro c hc
    rw [List.dropWhile_cons] at hc
    split at hc
    · exact ih c hc
    · rename_i hd
      rw [List.head?_cons, Option.some.injEq] at hc
      rw [← hc]
      exact Bool.eq_false_iff.mpr hd

theorem dropWhile_id_of_head (l : List Char)
    (h : ∀ c, l.head? = some c → isPySpace c = false) :
    l.dropWhile isPySpace = l := by
  cases l with
  | nil => rfl
  | cons d ds =>
    rw [List.dropWhile_cons, if_neg]
    rw [h d (by rw [List.head?_cons])]
    simp

theorem dropWhile_chain (l : List Char)
    (h : List.Chain' (fun a c => ¬(isPySpace a = true ∧ isPySpace c = true)) l) :
    List.Chain' (fun a c => ¬(isPySpace a = true ∧ isPySpace c = true))
      (l.dropWhile isPySpace) := by
  induction l with
  | nil => simp
  | cons d ds ih =>
    rw [List.dropWhile_cons]
    split
    · exact ih ((List.chain'_cons'.mp h).2)
    · exact h

theorem dropWhile_mem (l : List Char) (c : Char)
    (h : c ∈ l.dropWhile isPySpace) : c ∈ l :=
  (List.dropWhile_sublist _).mem h

theorem dropTrailWS_mem (l : List Char) :
    ∀ c ∈ dropTrailWS l, c ∈ l := by
  induction l with
  | nil => intro c hc; exact absurd hc (List.not_mem_nil c)
  | cons d ds ih =>
    intro c hc
    rw [dropTrailWS] at hc
    split at hc
    · exact absurd hc (List.not_mem_nil c)
    · rcases List.mem_cons.mp hc with rfl | hc2
      · exact List.mem_cons_self c ds
      · exact List.mem_cons_of_mem d (ih c hc2)

theorem dropTrailWS_head (l : List Char) (h : dropTrailWS l ≠ []) :
    (dropTrailWS l).head? = l.head? := by
  cases l with
  | nil => rfl
  | cons d ds =>
    rw [dropTrailWS]
    rw [dropTrailWS] at h
    split
    · rename_i hcond
      exact absurd rfl (by rw [if_pos hcond] at h; exact h)
    · rw [List.head?_cons, List.head?_cons]

theorem dropTrailWS_chain (l : List Char)
    (h : List.Chain' (fun a c => ¬(isPySpace a = true ∧ isPySpace c = true)) l) :
    List.Chain' (fun a c => ¬(isPySpace a = true ∧ isPySpace c = true))
      (dropTrailWS l) := by
  induction l with
  | nil => simp [dropTrailWS]
  | cons d ds ih =>
    rw [List.chain'_cons'] at h
    rw [dropTrailWS]
    split
    · simp
    · rw [List.chain'_cons']
      refine ⟨?_, ih h.2⟩
      intro c hc
      by_cases hr : dropTrailWS ds = []
      · rw [hr] at hc
        exact absurd hc (by simp)
      · rw [dropTrailWS_head ds hr] at hc
        exact h.1 c hc

theorem dropTrailWS_last (l : List Char) :
    ∀ c, (dropTrailWS l).getLast? = some c → isPySpace c = false := by
  induction l with
  | nil => intro c hc; exact absurd hc (by simp [dropTrailWS])
  | cons d ds ih =>
    intro c hc
    rw [dropTrailWS] at hc
    split at hc
    · exact absurd hc (by simp)
    · rename_i hcond
      cases hr : dropTrailWS ds with
      | nil =>
        rw [hr] at hc hcond
        simp only [List.getLast?_singleton, Option.some.injEq] at hc
        rw [← hc]
        simp only [List.isEmpty_nil, Bool.true_and] at hcond
        exact Bool.eq_false_iff.mpr hcond
      | cons x xs =>
        rw [hr] at hc
        rw [List.getLast?_cons_cons] at hc
        rw [← hr] at hc
        exact ih c hc

theorem dropTrailWS_id (l : List Char)
    (h : ∀ c, l.getLast? = some c → isPySpace c = false) :
    dropTrailWS l = l := by
  induction l with
  | nil => rfl
  | cons d ds ih =>
    cases hds : ds with
    | nil =>
      rw [dropTrailWS]
      rw [if_neg]
      simp only [dropTrailWS, List.isEmpty_nil, Bool.true_and]
      rw [h d (by rw [hds, List.getLast?_singleton])]
      simp
    | cons x xs =>
      rw [← hds]
      have hds2 : ds ≠ [] := by rw [hds]; simp
      have hlast : ∀ c, ds.getLast? = some c → isPySpace c = false := by
        intro c hc
        refine h c ?_
        rw [List.getLast?_cons, hc]
        simp [hds]
      rw [dropTrailWS, ih hlast, if_neg]
      simp [hds]

theorem stripWS_facts (l : List Char) :
    (∀ c ∈ stripWS l, c ∈ l) ∧
    (stripWS l ≠ [] → (stripWS l).head? = (l.dropWhile isPySpace).head?) := by
  constructor
  · intro c hc
    exact dropWhile_mem l c (dropTrailWS_mem _ c hc)
  · intro hne
    exact dropTrailWS_head _ hne

/-- C9 (amended): clean_text is idempotent on every input containing no
control character of the stripped class (the class whose deferred removal
breaks idempotence, as the counterexample shows): for such inputs a second
application returns the first result unchanged. -/
theorem clean_text_idempotent_of_no_ctrl (l : List Char)
    (h : ∀ c ∈ l, isStrippedCtrl c = false) :
    clean_text (clean_text l) = clean_text l := by
  by_cases hl : l.isEmpty = true
  · have hnil : clean_text l = [] := by rw [clean_text, if_pos hl]
    rw [hnil]
    rfl
  · have hstep : clean_text l =
        (stripWS (collapseWS l)).filter (fun c => !isStrippedCtrl c) := by
      rw [clean_text, if_neg hl]
    set m : List Char := stripWS (collapseWS l) with hm
    have hmem : ∀ c ∈ m, c = ' ' ∨ c ∈ l := by
      intro c hc
      rw [hm, stripWS] at hc
      have h1 : c ∈ collapseWS l :=
        dropWhile_mem _ c (dropTrailWS_mem _ c hc)
      rw [collapseWS] at h1
      exact collapseWSAux_mem l false c h1
    have hfil : m.filter (fun c => !isStrippedCtrl c) = m := by
      rw [List.filter_eq_self]
      intro c hc
      rcases hmem c hc with rfl | hcl
      · decide
      · simp [h c hcl]
    rw [hstep, hfil]
    rw [clean_text]
    by_cases hme : m.isEmpty = true
    · rw [if_pos hme]
      exact (List.isEmpty_iff.mp hme).symm
    · rw [if_neg hme]
      have hmne : dropTrailWS ((collapseWS l).dropWhile isPySpace) ≠ [] := by
        intro hx
        rw [hm, stripWS] at hme
        rw [hx] at hme
        exact hme rfl
      have hws : ∀ c ∈ m, isPySpace c = true → c = ' ' := by
        intro c hc
        rw [hm, stripWS] at hc
        have h1 : c ∈ collapseWS l :=
          dropWhile_mem _ c (dropTrailWS_mem _ c hc)
        rw [collapseWS] at h1
        exact collapseWSAux_space_eq l false c h1
      have hch : List.Chain'
          (fun a c => ¬(isPySpace a = true ∧ isPySpace c = true)) m := by
        rw [hm, stripWS]
        refine dropTrailWS_chain _ (dropWhile_chain _ ?_)
        rw [collapseWS]
        exact collapseWSAux_chain l false
      have hhd : ∀ c, m.head? = some c → isPySpace c = false := by
        intro c hc
        rw [hm, stripWS, dropTrailWS_head _ hmne] at hc
        exact dropWhile_head_not _ c hc
      have hcol : collapseWS m = m := by
        rw [collapseWS]
        exact collapseWSAux_id m false hws hch
          (fun hx => absurd hx (by simp))
      have hdw : (collapseWS m).dropWhile isPySpace = m := by
        rw [hcol]
        exact dropWhile_id_of_head m hhd
      have hdt : dropTrailWS m = m := by
        refine dropTrailWS_id m fun c hc => ?_
        rw [hm, stripWS] at hc
        exact dropTrailWS_last _ c hc
      rw [stripWS, hdw, hdt, hfil]

/-- C9 witness: a control-free string with internal whitespace runs. -/
theorem clean_text_idempotent_of_no_ctrl_witness :
    clean_text (clean_text (' ' :: 'a' :: ' ' :: ' ' :: 'b' :: [' '])) =
      clean_text (' ' :: 'a' :: ' ' :: ' ' :: 'b' :: [' ']) :=
  clean_text_idempotent_of_no_ctrl _ (by decide)

end Forensic
